import Mathlib

/-!
Shallow embedding of `src/src/lib.rs` (a separate-chaining hash map with
dynamic growth, an entry API and iterators), together with proofs about it.

Modelling conventions:
* `Vec<Vec<(K, V)>>` becomes `List (List (K × V))`; `usize` counters become `Nat`.
* The hashing capability (`DefaultHasher`; `hasher.finish()` yields a 64-bit
  digest) is an injected parameter `hash : K → Nat` giving the digest of a key;
  all the code does with a digest is reduce it modulo the bucket count.
* A Rust operation that can panic is embedded with an `Option` result whose
  `none` marks the panic.  The only reachable panic in this code is the
  remainder-by-zero in `HashMap::bucket` when the bucket array is empty
  (`hasher.finish() % self.buckets.len() as u64` with `len = 0`), so
  `HashMap.bucket` returns `none` exactly in that case and `get`, `remove`
  and `contains_key` propagate it.
* References returned by the entry API are embedded by returning the
  referenced value (as data) next to the updated map.
-/

set_option autoImplicit false
set_option linter.unusedSectionVars false

namespace RustLhm

variable {α : Type}

/-- the `const INITIAL_NBUCKETS: usize = 1` of the source. -/
def INITIAL_NBUCKETS : Nat := 1

/-- embedding of `struct HashMap<K, V> { buckets: Vec<Vec<(K, V)>>, items: usize }`. -/
structure HashMap (K V : Type) where
  buckets : List (List (K × V))
  items : Nat
deriving DecidableEq

variable {K V : Type} [DecidableEq K]

/-- embedding of `HashMap::new`: no buckets, zero items. -/
def HashMap.new : HashMap K V :=
  { buckets := [], items := 0 }

/-- concatenation of all buckets, in bucket order and in-bucket order; this is
the order in which `iter_mut().flat_map(|bucket| bucket.drain(..))` drains the
pairs during `resize`, and also the pair content of the whole table. -/
def allPairs : List (List α) → List α
  | [] => []
  | b :: bs => b ++ allPairs bs

/-- embedding of `buckets[i].push(x)`: replace bucket `i` by itself with `x`
appended (used by `resize` and by `VacantEntry::insert`). -/
def pushAt (bs : List (List α)) (i : Nat) (x : α) : List (List α) :=
  bs.set i ((bs.getD i []) ++ [x])

/-- embedding of `bucket.iter().find(|&(ref ekey, _)| ekey == key)`:
first pair of the bucket whose key equals `key`. -/
def bucketFind (key : K) : List (K × V) → Option (K × V)
  | [] => none
  | p :: ps => if p.1 = key then some p else bucketFind key ps

/-- embedding of `bucket.iter().position(|&(ref ekey, _)| ekey == key)`:
index of the first pair of the bucket whose key equals `key`. -/
def bucketPosition (key : K) : List (K × V) → Option Nat
  | [] => none
  | p :: ps => if p.1 = key then some 0 else (bucketPosition key ps).map (· + 1)

/-- embedding of the scan-and-replace loop in `HashMap::insert`
(`for &mut (ref ekey, ref mut evalue) in bucket.iter_mut() { if ekey == &key
{ return Some(mem::replace(evalue, value)); } }`): on the first pair whose key
equals `key`, replace the value in place and report the old value; `none` when
no pair of the bucket has this key. -/
def replaceInBucket : List (K × V) → K → V → Option (V × List (K × V))
  | [], _, _ => none
  | p :: ps, key, value =>
    if p.1 = key then some (p.2, (p.1, value) :: ps)
    else (replaceInBucket ps key value).map fun r => (r.1, p :: r.2)

/-- embedding of `Vec::swap_remove(i)`: the element at `i` is overwritten with
the vector's last element and the vector shrinks by one. -/
def swapRemove (l : List α) (i : Nat) : List α :=
  match l.getLast? with
  | none => l
  | some lastElem => (l.set i lastElem).dropLast

/-- embedding of `HashMap::resize`: double the bucket count (or seed it at
`INITIAL_NBUCKETS`), then drain every pair of every old bucket in order and
push it into bucket `hash(key) % target_size` of the fresh bucket array. -/
def HashMap.resize (hash : K → Nat) (m : HashMap K V) : HashMap K V :=
  let targetSize := match m.buckets.length with
    | 0 => INITIAL_NBUCKETS
    | n => 2 * n
  let newBuckets := List.replicate targetSize ([] : List (K × V))
  let filled := (allPairs m.buckets).foldl
    (fun bs kv => pushAt bs (hash kv.1 % targetSize) kv) newBuckets
  { buckets := filled, items := m.items }

/-- embedding of `HashMap::bucket`: `(hasher.finish() % self.buckets.len() as u64)
as usize`.  With zero buckets the remainder is taken modulo zero, which panics
in Rust; that panic is the `none` result. -/
def HashMap.bucket (hash : K → Nat) (m : HashMap K V) (key : K) : Option Nat :=
  if m.buckets.length = 0 then none
  else some (hash key % m.buckets.length)

/-- the growth condition on the `insert` path:
`self.buckets.is_empty() || self.items > self.buckets.len() / 4`. -/
def HashMap.insertGrowCond (m : HashMap K V) : Bool :=
  m.buckets.isEmpty || decide (m.items > m.buckets.length / 4)

/-- the growth condition on the `entry` path:
`self.buckets.is_empty() || self.items > 3 * self.buckets.len() / 4`. -/
def HashMap.entryGrowCond (m : HashMap K V) : Bool :=
  m.buckets.isEmpty || decide (m.items > 3 * m.buckets.length / 4)

/-- the body of `HashMap::insert` after the growth check: scan the key's
bucket, replacing in place (and returning the old value), or `push` a fresh
pair onto the bucket and increment `items`. -/
def HashMap.insertPost (hash : K → Nat) (m1 : HashMap K V) (key : K) (value : V) :
    Option V × HashMap K V :=
  match replaceInBucket (m1.buckets.getD (hash key % m1.buckets.length) []) key value with
  | some r =>
      (some r.1, { buckets := m1.buckets.set (hash key % m1.buckets.length) r.2,
                   items := m1.items })
  | none =>
      (none, { buckets := pushAt m1.buckets (hash key % m1.buckets.length) (key, value),
               items := m1.items + 1 })

/-- embedding of `HashMap::insert`: grow if needed, then run the scan body.
After the growth check the bucket array is nonempty, so the modulus inside
`insertPost` is never taken by zero. -/
def HashMap.insert (hash : K → Nat) (m : HashMap K V) (key : K) (value : V) :
    Option V × HashMap K V :=
  HashMap.insertPost hash (if m.insertGrowCond then m.resize hash else m) key value

/-- embedding of `enum Entry`: `Occupied` keeps the slot's coordinates (bucket
index and index within the bucket, standing in for the `&mut (K, V)` alias),
`Vacant` keeps the not-yet-inserted key and the target bucket index. -/
inductive Entry (K V : Type) where
  | Occupied (bucket : Nat) (index : Nat)
  | Vacant (key : K) (bucket : Nat)

/-- embedding of `VacantEntry::insert`: push `(key, value)` onto the captured
bucket, increment `items`, and hand back (the value behind) the returned
`&mut V`. -/
def VacantEntry.insert (m : HashMap K V) (key : K) (bucket : Nat) (value : V) :
    HashMap K V × V :=
  ({ buckets := pushAt m.buckets bucket (key, value), items := m.items + 1 }, value)

/-- the pair stored at bucket `b`, offset `i` (the target of an `Occupied`
entry's `&mut (K, V)`). -/
def bucketGet (bs : List (List (K × V))) (b i : Nat) : Option (K × V) :=
  (bs.getD b [])[i]?

/-- embedding of `Entry::or_insert`: `Occupied` hands back the existing value,
`Vacant` inserts the given value. -/
def Entry.or_insert (me : HashMap K V × Entry K V) (value : V) :
    HashMap K V × Option V :=
  match me.2 with
  | Entry.Occupied b i => (me.1, (bucketGet me.1.buckets b i).map Prod.snd)
  | Entry.Vacant key b =>
      let r := VacantEntry.insert me.1 key b value
      (r.1, some r.2)

/-- embedding of `Entry::or_insert_with`: the producer is applied only on the
`Vacant` arm (`e.insert(maker())`).  The trailing `Nat` counts how many times
the producer was invoked, which the code determines structurally: zero on
`Occupied`, one on `Vacant`. -/
def Entry.or_insert_with (me : HashMap K V × Entry K V) (maker : Unit → V) :
    (HashMap K V × Option V) × Nat :=
  match me.2 with
  | Entry.Occupied b i => ((me.1, (bucketGet me.1.buckets b i).map Prod.snd), 0)
  | Entry.Vacant key b =>
      let r := VacantEntry.insert me.1 key b (maker ())
      ((r.1, some r.2), 1)

/-- embedding of `Entry::or_default`: `or_insert_with(Default::default)`. -/
def Entry.or_default [Inhabited V] (me : HashMap K V × Entry K V) :
    (HashMap K V × Option V) × Nat :=
  Entry.or_insert_with me (fun _ => default)

/-- the body of `HashMap::entry` after the growth check: a scan of the key's
bucket by `position`, yielding an `Occupied` or `Vacant` handle. -/
def HashMap.entryPost (hash : K → Nat) (m1 : HashMap K V) (key : K) :
    HashMap K V × Entry K V :=
  match bucketPosition key (m1.buckets.getD (hash key % m1.buckets.length) []) with
  | some index => (m1, Entry.Occupied (hash key % m1.buckets.length) index)
  | none => (m1, Entry.Vacant key (hash key % m1.buckets.length))

/-- embedding of `HashMap::entry`: its own growth check, then the scan body,
yielding a handle over the (possibly resized) table.  After the growth check
the bucket array is nonempty, so the modulus inside `entryPost` is never taken
by zero. -/
def HashMap.entry (hash : K → Nat) (m : HashMap K V) (key : K) :
    HashMap K V × Entry K V :=
  HashMap.entryPost hash (if m.entryGrowCond then m.resize hash else m) key

/-- `map.entry(key).or_insert(value)` as one operation. -/
def HashMap.entry_or_insert (hash : K → Nat) (m : HashMap K V) (key : K) (value : V) :
    HashMap K V × Option V :=
  Entry.or_insert (m.entry hash key) value

/-- `map.entry(key).or_insert_with(maker)` as one operation. -/
def HashMap.entry_or_insert_with (hash : K → Nat) (m : HashMap K V) (key : K)
    (maker : Unit → V) : (HashMap K V × Option V) × Nat :=
  Entry.or_insert_with (m.entry hash key) maker

/-- `map.entry(key).or_default()` as one operation. -/
def HashMap.entry_or_default [Inhabited V] (hash : K → Nat) (m : HashMap K V) (key : K) :
    (HashMap K V × Option V) × Nat :=
  Entry.or_default (m.entry hash key)

/-- embedding of `HashMap::len`. -/
def HashMap.len (m : HashMap K V) : Nat :=
  m.items

/-- embedding of `HashMap::is_empty`. -/
def HashMap.is_empty (m : HashMap K V) : Bool :=
  decide (m.items = 0)

/-- embedding of `HashMap::get`: `self.buckets[self.bucket(key)].iter().find(..)
.map(|&(_, ref v)| v)`.  The outer `Option` is the panic of `bucket` on a
zero-bucket table; the inner `Option` is found / not found. -/
def HashMap.get (hash : K → Nat) (m : HashMap K V) (key : K) : Option (Option V) :=
  (m.bucket hash key).map fun b =>
    (bucketFind key (m.buckets.getD b [])).map Prod.snd

/-- embedding of `HashMap::remove`: locate the key's position in its bucket;
absent means no mutation; present means `swap_remove` at that position and a
decrement of `items`.  The outer `Option` is again the panic of `bucket`.
The inner impossible arm (a position that is out of bounds) returns the map
unchanged; `bucketPosition` only ever produces in-bounds indices. -/
def HashMap.remove (hash : K → Nat) (m : HashMap K V) (key : K) :
    Option (Option V × HashMap K V) :=
  (m.bucket hash key).map fun b =>
    match bucketPosition key (m.buckets.getD b []) with
    | none => (none, m)
    | some i =>
        match (m.buckets.getD b [])[i]? with
        | some p =>
            (some p.2, { buckets := m.buckets.set b (swapRemove (m.buckets.getD b []) i),
                         items := m.items - 1 })
        | none => (none, m)

/-- embedding of `HashMap::contains_key`: `self.get(key).is_some()`, with the
panic of `get` propagated. -/
def HashMap.contains_key (hash : K → Nat) (m : HashMap K V) (key : K) : Option Bool :=
  (m.get hash key).map Option.isSome

/-- cursor of the borrowing iterator `struct Iter { bucket: usize, at: usize }`
(the `map: &'a HashMap<K, V>` borrow is passed to `next` explicitly). -/
structure Iter where
  bucket : Nat
  atPos : Nat
deriving DecidableEq

/-- embedding of `<Iter as Iterator>::next`: yield the pair at the cursor and
advance the offset, or move to the next bucket with offset zero, terminating
once the bucket index runs off the end of the bucket array. -/
def Iter.next (m : HashMap K V) (it : Iter) : Option ((K × V) × Iter) :=
  if _h : it.bucket < m.buckets.length then
    match (m.buckets.getD it.bucket [])[it.atPos]? with
    | some kv => some (kv, { bucket := it.bucket, atPos := it.atPos + 1 })
    | none => Iter.next m { bucket := it.bucket + 1, atPos := 0 }
  else none
termination_by m.buckets.length - it.bucket
decreasing_by omega

/-- embedding of `impl IntoIterator for &HashMap`: a fresh borrowing iterator
always starts at bucket 0, offset 0. -/
def HashMap.iter (_m : HashMap K V) : Iter :=
  { bucket := 0, atPos := 0 }

/-- a consumer driving the borrowing iterator: call `next` up to `fuel` times,
collecting every yielded pair in order. -/
def iterCollect (m : HashMap K V) : Nat → Iter → List (K × V)
  | 0, _ => []
  | fuel + 1, it =>
    match Iter.next m it with
    | none => []
    | some r => r.1 :: iterCollect m fuel r.2

/-- folding `insert` over a list of pairs, as a consumer (or the
`FromIterator` impl) would. -/
def HashMap.insertList (hash : K → Nat) (m : HashMap K V) (ps : List (K × V)) :
    HashMap K V :=
  ps.foldl (fun acc kv => (acc.insert hash kv.1 kv.2).2) m

/-- embedding of `impl FromIterator for HashMap`: start from `new` and insert
every pair in order. -/
def HashMap.from_iter (hash : K → Nat) (ps : List (K × V)) : HashMap K V :=
  HashMap.insertList hash HashMap.new ps

/-- a concrete reachable table: inserting keys 1, 2, 3 (with the identity
digest function) into a fresh table yields four buckets holding three items,
a state on which the insert-path growth condition holds while the entry-path
growth condition does not. -/
def exampleTable4x3 : HashMap Nat Nat :=
  HashMap.from_iter (fun n => n) [(1, 10), (2, 20), (3, 30)]

/-- association-list view of the whole table: the value of the first pair
carrying this key, over all buckets in order. -/
def lookupA (key : K) (l : List (K × V)) : Option V :=
  (bucketFind key l).map Prod.snd

/-- abstract content of the table at a key. -/
def HashMap.model (m : HashMap K V) (key : K) : Option V :=
  lookupA key (allPairs m.buckets)

/-- placement invariant: every stored pair lives in the bucket selected by its
key's digest modulo the current bucket count. -/
@[reducible] def HashMap.WfBuckets (hash : K → Nat) (m : HashMap K V) : Prop :=
  ∀ i, i < m.buckets.length →
    ∀ p ∈ m.buckets.getD i [], hash p.1 % m.buckets.length = i

/-- no-duplicate-keys invariant: across all buckets combined, each key occurs
in at most one stored pair. -/
@[reducible] def HashMap.NodupKeys (m : HashMap K V) : Prop :=
  ((allPairs m.buckets).map Prod.fst).Nodup

/-- the reachability invariant of the table (placement plus key uniqueness);
it holds for `new` and is preserved by every operation. -/
@[reducible] def HashMap.Wf (hash : K → Nat) (m : HashMap K V) : Prop :=
  m.WfBuckets hash ∧ m.NodupKeys

/-- counting invariant: `items == sum(len(bucket) for bucket in buckets)`
(the bucket lengths summed in order is exactly `(allPairs m.buckets).length`). -/
@[reducible] def HashMap.CountInv (m : HashMap K V) : Prop :=
  m.items = (allPairs m.buckets).length

/-! ### List-level lemmas about `allPairs`, `List.set`, `List.getD`, `pushAt` -/

theorem allPairs_nil : allPairs ([] : List (List α)) = [] := rfl

theorem allPairs_cons (b : List α) (bs : List (List α)) :
    allPairs (b :: bs) = b ++ allPairs bs := rfl

theorem allPairs_replicate_nil (n : Nat) :
    allPairs (List.replicate n ([] : List α)) = [] := by
  induction n with
  | zero => rfl
  | succ n ih => simpa [List.replicate, allPairs_cons] using ih

theorem getD_set_self : ∀ (l : List α) (i : Nat) (x d : α), i < l.length →
    (l.set i x).getD i d = x
  | [], i, _, _, h => absurd h (by simp)
  | _ :: _, 0, _, _, _ => rfl
  | _ :: l, i + 1, x, d, h => getD_set_self l i x d (Nat.lt_of_succ_lt_succ h)

theorem getD_set_ne : ∀ (l : List α) (i j : Nat) (x d : α), i ≠ j →
    (l.set i x).getD j d = l.getD j d
  | [], _, _, _, _, _ => by simp
  | _ :: _, 0, 0, _, _, h => absurd rfl h
  | _ :: _, 0, _ + 1, _, _, _ => rfl
  | _ :: _, _ + 1, 0, _, _, _ => rfl
  | _ :: l, i + 1, j + 1, x, d, h =>
    getD_set_ne l i j x d (fun e => h (by rw [e]))

theorem allPairs_set : ∀ (bs : List (List α)) (i : Nat) (bk : List α), i < bs.length →
    allPairs (bs.set i bk)
      = allPairs (bs.take i) ++ bk ++ allPairs (bs.drop (i + 1))
  | [], i, _, h => absurd h (by simp)
  | _ :: _, 0, bk, _ => by simp [allPairs_cons, allPairs_nil]
  | b :: bs, i + 1, bk, h => by
    simp only [List.set, List.take, List.drop, allPairs_cons,
      allPairs_set bs i bk (Nat.lt_of_succ_lt_succ h), List.append_assoc]

theorem allPairs_decomp : ∀ (bs : List (List α)) (i : Nat), i < bs.length →
    allPairs bs = allPairs (bs.take i) ++ bs.getD i [] ++ allPairs (bs.drop (i + 1))
  | [], i, h => absurd h (by simp)
  | _ :: _, 0, _ => by simp [allPairs_cons, allPairs_nil]
  | b :: bs, i + 1, h => by
    have ih := allPairs_decomp bs i (Nat.lt_of_succ_lt_succ h)
    simp only [List.take, List.drop, allPairs_cons, List.getD_cons_succ]
    rw [ih]
    simp [List.append_assoc]

theorem length_pushAt (bs : List (List α)) (i : Nat) (x : α) :
    (pushAt bs i x).length = bs.length := by
  simp [pushAt]

theorem allPairs_pushAt (bs : List (List α)) (i : Nat) (x : α) (h : i < bs.length) :
    (allPairs (pushAt bs i x)).Perm (x :: allPairs bs) := by
  rw [pushAt, allPairs_set bs i _ h, allPairs_decomp bs i h]
  have he : (allPairs (bs.take i) ++ (bs.getD i [] ++ [x])) ++ allPairs (bs.drop (i + 1))
      = (allPairs (bs.take i) ++ bs.getD i []) ++ x :: allPairs (bs.drop (i + 1)) := by
    simp [List.append_assoc]
  rw [he]
  exact List.perm_middle

theorem mem_allPairs_of_mem_getD : ∀ (bs : List (List α)) (i : Nat) (p : α),
    p ∈ bs.getD i [] → p ∈ allPairs bs
  | [], i, p, h => by simp [List.getD] at h
  | b :: bs, 0, p, h => by
    rw [allPairs_cons]
    exact List.mem_append.mpr (Or.inl h)
  | b :: bs, i + 1, p, h => by
    rw [allPairs_cons]
    exact List.mem_append.mpr (Or.inr (mem_allPairs_of_mem_getD bs i p h))

theorem mem_getD_of_mem_allPairs : ∀ (bs : List (List α)) (p : α),
    p ∈ allPairs bs → ∃ i, i < bs.length ∧ p ∈ bs.getD i []
  | [], p, h => absurd h (by simp [allPairs_nil])
  | b :: bs, p, h => by
    rcases List.mem_append.mp (by simpa [allPairs_cons] using h) with h1 | h2
    · exact ⟨0, by simp, h1⟩
    · obtain ⟨i, hi, hp⟩ := mem_getD_of_mem_allPairs bs p h2
      exact ⟨i + 1, by simpa using hi, hp⟩

theorem getD_sublist : ∀ (bs : List (List α)) (i : Nat),
    (bs.getD i []).Sublist (allPairs bs)
  | [], i => by simp [List.getD]
  | b :: bs, 0 => by
    rw [allPairs_cons]
    exact List.sublist_append_left b (allPairs bs)
  | b :: bs, i + 1 => by
    rw [allPairs_cons]
    exact (getD_sublist bs i).trans (List.sublist_append_right b (allPairs bs))

/-! ### Lemmas about the bucket scans `bucketFind`, `bucketPosition`, `replaceInBucket` -/

theorem bucketFind_nil (key : K) : bucketFind key ([] : List (K × V)) = none := rfl

theorem bucketFind_cons (key : K) (p : K × V) (ps : List (K × V)) :
    bucketFind key (p :: ps) = if p.1 = key then some p else bucketFind key ps := rfl

theorem bucketFind_eq_none_iff (key : K) (l : List (K × V)) :
    bucketFind key l = none ↔ ∀ p ∈ l, p.1 ≠ key := by
  induction l with
  | nil => simp [bucketFind]
  | cons p ps ih =>
    by_cases hp : p.1 = key
    · simp [bucketFind, hp]
    · simp [bucketFind, hp, ih]

theorem bucketFind_some {key : K} {l : List (K × V)} {p : K × V}
    (h : bucketFind key l = some p) : p ∈ l ∧ p.1 = key := by
  induction l with
  | nil => simp [bucketFind] at h
  | cons q ps ih =>
    by_cases hq : q.1 = key
    · rw [bucketFind, if_pos hq] at h
      obtain rfl : q = p := by injection h
      exact ⟨List.mem_cons_self q ps, hq⟩
    · rw [bucketFind, if_neg hq] at h
      obtain ⟨h1, h2⟩ := ih h
      exact ⟨List.mem_cons_of_mem _ h1, h2⟩

theorem bucketFind_append_none {key : K} {l1 : List (K × V)} (l2 : List (K × V))
    (h : bucketFind key l1 = none) :
    bucketFind key (l1 ++ l2) = bucketFind key l2 := by
  induction l1 with
  | nil => rfl
  | cons q ps ih =>
    by_cases hq : q.1 = key
    · rw [bucketFind, if_pos hq] at h
      cases h
    · rw [bucketFind, if_neg hq] at h
      rw [List.cons_append, bucketFind, if_neg hq]
      exact ih h

theorem bucketFind_append_some {key : K} {l1 : List (K × V)} {p : K × V} (l2 : List (K × V))
    (h : bucketFind key l1 = some p) :
    bucketFind key (l1 ++ l2) = some p := by
  induction l1 with
  | nil => simp [bucketFind] at h
  | cons q ps ih =>
    by_cases hq : q.1 = key
    · rw [bucketFind, if_pos hq] at h
      rw [List.cons_append, bucketFind, if_pos hq]
      exact h
    · rw [bucketFind, if_neg hq] at h
      rw [List.cons_append, bucketFind, if_neg hq]
      exact ih h

theorem bucketFind_unique {key : K} {l : List (K × V)} {p : K × V}
    (nd : (l.map Prod.fst).Nodup) (hp : p ∈ l) (hk : p.1 = key) :
    bucketFind key l = some p := by
  induction l with
  | nil => simp at hp
  | cons q ps ih =>
    rw [List.map_cons, List.nodup_cons] at nd
    rcases List.mem_cons.mp hp with rfl | hmem
    · rw [bucketFind, if_pos hk]
    · have hq : q.1 ≠ key := by
        intro e
        exact nd.1 (by
          rw [e, ← hk]
          exact List.mem_map_of_mem Prod.fst hmem)
      rw [bucketFind, if_neg hq]
      exact ih nd.2 hmem

theorem bucketPosition_eq_none_iff (key : K) (l : List (K × V)) :
    bucketPosition key l = none ↔ bucketFind key l = none := by
  induction l with
  | nil => simp [bucketPosition, bucketFind]
  | cons q ps ih =>
    by_cases hq : q.1 = key
    · simp [bucketPosition, bucketFind, hq]
    · simp [bucketPosition, bucketFind, hq, ih]

theorem bucketPosition_some {key : K} : ∀ {l : List (K × V)} {i : Nat},
    bucketPosition key l = some i →
    ∃ p, l[i]? = some p ∧ p.1 = key ∧ bucketFind key l = some p ∧ i < l.length
  | [], i, h => by simp [bucketPosition] at h
  | q :: ps, i, h => by
    by_cases hq : q.1 = key
    · rw [bucketPosition, if_pos hq] at h
      obtain rfl : 0 = i := by injection h
      exact ⟨q, by simp, hq, by rw [bucketFind, if_pos hq], by simp⟩
    · rw [bucketPosition, if_neg hq] at h
      rcases Option.map_eq_some'.mp h with ⟨j, hj, rfl⟩
      obtain ⟨p, h1, h2, h3, h4⟩ := bucketPosition_some hj
      exact ⟨p, by simpa using h1, h2, by rw [bucketFind, if_neg hq]; exact h3,
        by simpa using Nat.succ_lt_succ h4⟩

theorem replaceInBucket_eq_none_iff (l : List (K × V)) (key : K) (v : V) :
    replaceInBucket l key v = none ↔ bucketFind key l = none := by
  induction l with
  | nil => simp [replaceInBucket, bucketFind]
  | cons q ps ih =>
    by_cases hq : q.1 = key
    · simp [replaceInBucket, bucketFind, hq]
    · simp [replaceInBucket, bucketFind, hq, ih]

theorem replaceInBucket_some {key : K} {v : V} :
    ∀ {l : List (K × V)} {r : V × List (K × V)},
    replaceInBucket l key v = some r →
    ∃ p, bucketFind key l = some p ∧ r.1 = p.2
      ∧ r.2.map Prod.fst = l.map Prod.fst
      ∧ bucketFind key r.2 = some (key, v)
      ∧ (∀ k2, k2 ≠ key → bucketFind k2 r.2 = bucketFind k2 l)
  | [], r, h => by simp [replaceInBucket] at h
  | q :: ps, r, h => by
    by_cases hq : q.1 = key
    · rw [replaceInBucket, if_pos hq] at h
      cases h
      refine ⟨q, by rw [bucketFind, if_pos hq], rfl, rfl, ?_, ?_⟩
      · rw [bucketFind, if_pos hq]
        rw [hq]
      · intro k2 hk2
        have hq2 : q.1 ≠ k2 := by rw [hq]; exact fun e => hk2 e.symm
        rw [bucketFind, if_neg hq2, bucketFind, if_neg hq2]
    · rw [replaceInBucket, if_neg hq] at h
      rcases Option.map_eq_some'.mp h with ⟨r0, hr0, rfl⟩
      obtain ⟨p, h1, h2, h3, h4, h5⟩ := replaceInBucket_some hr0
      refine ⟨p, by rw [bucketFind, if_neg hq]; exact h1, h2,
        by simpa using h3, ?_, ?_⟩
      · have hq' : q.1 ≠ key := hq
        rw [bucketFind, if_neg hq']
        exact h4
      · intro k2 hk2
        by_cases hqk : q.1 = k2
        · rw [bucketFind, if_pos hqk, bucketFind, if_pos hqk]
        · rw [bucketFind, if_neg hqk, bucketFind, if_neg hqk]
          exact h5 k2 hk2

/-! ### Lemmas about `swapRemove` -/

theorem dropLast_cons_of_ne_nil (a : α) {l : List α} (h : l ≠ []) :
    (a :: l).dropLast = a :: l.dropLast := by
  cases l with
  | nil => exact absurd rfl h
  | cons b bs => rfl

theorem swapRemove_cons_perm : ∀ (l : List α) (i : Nat) (p : α), l[i]? = some p →
    (p :: swapRemove l i).Perm l
  | [], i, p, h => by simp at h
  | x :: xs, 0, p, h => by
    have hxp : x = p := by simpa using h
    subst hxp
    cases xs with
    | nil => rfl
    | cons y ys =>
      have hne : (y :: ys) ≠ [] := List.cons_ne_nil y ys
      have hlast : (x :: y :: ys).getLast? = some ((y :: ys).getLast hne) := by
        rw [List.getLast?_cons_cons]
        exact List.getLast?_eq_getLast (y :: ys) hne
      rw [swapRemove, hlast]
      simp only [List.set]
      rw [dropLast_cons_of_ne_nil _ hne]
      refine List.Perm.cons x ?_
      have := List.perm_append_singleton ((y :: ys).getLast hne) (y :: ys).dropLast
      rw [List.dropLast_append_getLast hne] at this
      exact this.symm
  | x :: xs, i + 1, p, h => by
    have h' : xs[i]? = some p := by simpa using h
    have hne : xs ≠ [] := by
      cases xs with
      | nil => simp at h'
      | cons y ys => exact List.cons_ne_nil y ys
    obtain ⟨lastE, hlast⟩ : ∃ e, xs.getLast? = some e := by
      cases xs with
      | nil => exact absurd rfl hne
      | cons y ys => exact ⟨_, List.getLast?_eq_getLast (y :: ys) (List.cons_ne_nil y ys)⟩
    have hset : xs.set i lastE ≠ [] := by
      have : (xs.set i lastE).length = xs.length := List.length_set xs i lastE
      intro e
      rw [e] at this
      cases xs with
      | nil => exact hne rfl
      | cons y ys => simp at this
    have hstep : swapRemove (x :: xs) (i + 1) = x :: swapRemove xs i := by
      rw [swapRemove, swapRemove]
      cases xs with
      | nil => exact absurd rfl hne
      | cons y ys =>
        rw [List.getLast?_cons_cons, hlast]
        simp only [List.set]
        rw [dropLast_cons_of_ne_nil x hset]
    rw [hstep]
    exact ((List.Perm.swap x p (swapRemove xs i)).trans
      (List.Perm.cons x (swapRemove_cons_perm xs i p h')))

theorem swapRemove_length {l : List α} {i : Nat} {p : α} (h : l[i]? = some p) :
    (swapRemove l i).length + 1 = l.length := by
  have := (swapRemove_cons_perm l i p h).length_eq
  simpa using this

/-! ### Lemmas about `lookupA` -/

theorem lookupA_perm {l l' : List (K × V)} (hp : l.Perm l')
    (nd : (l.map Prod.fst).Nodup) (key : K) :
    lookupA key l = lookupA key l' := by
  unfold lookupA
  rcases hfind : bucketFind key l with _ | p
  · have h1 := (bucketFind_eq_none_iff key l).mp hfind
    have h2 : bucketFind key l' = none :=
      (bucketFind_eq_none_iff key l').mpr (fun p hp' => h1 p (hp.mem_iff.mpr hp'))
    rw [h2]
  · obtain ⟨hmem, hkey⟩ := bucketFind_some hfind
    have nd' : (l'.map Prod.fst).Nodup := ((hp.map Prod.fst).nodup_iff).mp nd
    have h2 : bucketFind key l' = some p :=
      bucketFind_unique nd' (hp.mem_iff.mp hmem) hkey
    rw [h2]

theorem lookupA_eq_none_iff (key : K) (l : List (K × V)) :
    lookupA key l = none ↔ ∀ p ∈ l, p.1 ≠ key := by
  unfold lookupA
  rw [Option.map_eq_none']
  exact bucketFind_eq_none_iff key l

/-! ### Lemmas about `resize` -/

theorem resize_items (hash : K → Nat) (m : HashMap K V) :
    (m.resize hash).items = m.items := rfl

theorem foldl_pushAt_length (f : K × V → Nat) :
    ∀ (ps : List (K × V)) (bs : List (List (K × V))),
    (ps.foldl (fun acc kv => pushAt acc (f kv) kv) bs).length = bs.length
  | [], _ => rfl
  | kv :: ps, bs => by
    rw [List.foldl_cons, foldl_pushAt_length f ps _, length_pushAt]

theorem resize_length (hash : K → Nat) (m : HashMap K V) :
    (m.resize hash).buckets.length
      = if m.buckets.length = 0 then INITIAL_NBUCKETS else 2 * m.buckets.length := by
  simp only [HashMap.resize]
  rw [foldl_pushAt_length (fun kv => hash kv.1 % _), List.length_replicate]
  rcases m.buckets.length with _ | n
  · rfl
  · rfl

theorem resize_length_pos (hash : K → Nat) (m : HashMap K V) :
    0 < (m.resize hash).buckets.length := by
  rw [resize_length]
  split
  · exact Nat.one_pos
  · rename_i h
    omega

theorem foldl_pushAt_perm (f : K × V → Nat) :
    ∀ (ps : List (K × V)) (bs : List (List (K × V))),
    (∀ kv, f kv < bs.length) →
    (allPairs (ps.foldl (fun acc kv => pushAt acc (f kv) kv) bs)).Perm (allPairs bs ++ ps)
  | [], bs, _ => by simp
  | kv :: ps, bs, hf => by
    rw [List.foldl_cons]
    have h1 := foldl_pushAt_perm f ps (pushAt bs (f kv) kv)
      (fun kv2 => by rw [length_pushAt]; exact hf kv2)
    refine h1.trans ?_
    have h2 := (allPairs_pushAt bs (f kv) kv (hf kv)).append_right ps
    refine h2.trans ?_
    exact List.perm_middle.symm

theorem resize_perm (hash : K → Nat) (m : HashMap K V) :
    (allPairs (m.resize hash).buckets).Perm (allPairs m.buckets) := by
  have hT : 0 < (match m.buckets.length with | 0 => INITIAL_NBUCKETS | n => 2 * n) := by
    rcases m.buckets.length with _ | n
    · exact Nat.one_pos
    · show 0 < 2 * (n + 1)
      omega
  simp only [HashMap.resize]
  refine ((foldl_pushAt_perm (fun kv => hash kv.1 % _) (allPairs m.buckets) _
    (fun kv => by rw [List.length_replicate]; exact Nat.mod_lt _ hT)).trans ?_)
  rw [allPairs_replicate_nil, List.nil_append]

theorem foldl_pushAt_placed (hash : K → Nat) (T : Nat) :
    ∀ (ps : List (K × V)) (bs : List (List (K × V))),
    bs.length = T →
    (∀ i, i < T → ∀ p ∈ bs.getD i [], hash p.1 % T = i) →
    ∀ i, i < T →
      ∀ p ∈ (ps.foldl (fun acc kv => pushAt acc (hash kv.1 % T) kv) bs).getD i [],
        hash p.1 % T = i
  | [], _, _, hinv => hinv
  | kv :: ps, bs, hlen, hinv => by
    rw [List.foldl_cons]
    refine foldl_pushAt_placed hash T ps _ (by rw [length_pushAt]; exact hlen) ?_
    intro i hi p hp
    by_cases hij : hash kv.1 % T = i
    · rw [pushAt, hij, getD_set_self _ _ _ _ (by rw [hlen]; exact hi)] at hp
      rcases List.mem_append.mp hp with h1 | h2
      · exact hinv i hi p h1
      · have hpkv : p = kv := by simpa using h2
        rw [hpkv]
        exact hij
    · rw [pushAt, getD_set_ne _ _ _ _ _ hij] at hp
      exact hinv i hi p hp

theorem resize_WfBuckets (hash : K → Nat) (m : HashMap K V) :
    (m.resize hash).WfBuckets hash := by
  intro i hi p hp
  have hlen : (m.resize hash).buckets.length
      = (match m.buckets.length with | 0 => INITIAL_NBUCKETS | n => 2 * n) := by
    simp only [HashMap.resize]
    rw [foldl_pushAt_length (fun kv => hash kv.1 % _), List.length_replicate]
  rw [hlen] at hi ⊢
  revert hp
  simp only [HashMap.resize]
  refine foldl_pushAt_placed hash _ (allPairs m.buckets) _ (by rw [List.length_replicate]) ?_ i hi p
  intro j _ q hq
  exact absurd (mem_allPairs_of_mem_getD _ j q hq) (by rw [allPairs_replicate_nil]; simp)

theorem resize_wf (hash : K → Nat) {m : HashMap K V} (hwf : m.Wf hash) :
    (m.resize hash).Wf hash := by
  refine ⟨resize_WfBuckets hash m, ?_⟩
  exact (((resize_perm hash m).map Prod.fst).nodup_iff).mpr hwf.2

theorem resize_model (hash : K → Nat) {m : HashMap K V} (hwf : m.Wf hash) (key : K) :
    (m.resize hash).model key = m.model key :=
  lookupA_perm (resize_perm hash m)
    ((((resize_perm hash m).map Prod.fst).nodup_iff).mpr hwf.2) key

/-! ### Map-level lemmas: the grown table, and localizing `get` to the model -/

theorem length_pos_of_not_isEmpty {m : HashMap K V} (h : m.buckets.isEmpty = false) :
    0 < m.buckets.length := by
  cases hb : m.buckets with
  | nil => rw [hb] at h; simp at h
  | cons b bs => simp

theorem grown_length_pos (hash : K → Nat) (m : HashMap K V) (c : Bool)
    (hc : c = false → m.buckets.isEmpty = false) :
    0 < (if c = true then m.resize hash else m).buckets.length := by
  cases c
  · rw [if_neg (by simp)]
    exact length_pos_of_not_isEmpty (hc rfl)
  · rw [if_pos rfl]
    exact resize_length_pos hash m

theorem insert_grown_length_pos (hash : K → Nat) (m : HashMap K V) :
    0 < (if m.insertGrowCond = true then m.resize hash else m).buckets.length :=
  grown_length_pos hash m _ (fun h => by
    unfold HashMap.insertGrowCond at h
    exact (Bool.or_eq_false_iff.mp h).1)

theorem entry_grown_length_pos (hash : K → Nat) (m : HashMap K V) :
    0 < (if m.entryGrowCond = true then m.resize hash else m).buckets.length :=
  grown_length_pos hash m _ (fun h => by
    unfold HashMap.entryGrowCond at h
    exact (Bool.or_eq_false_iff.mp h).1)

theorem grown_facts (hash : K → Nat) {m : HashMap K V} (c : Bool) (hwf : m.Wf hash) :
    (if c = true then m.resize hash else m).Wf hash
    ∧ (if c = true then m.resize hash else m).items = m.items
    ∧ (∀ key, (if c = true then m.resize hash else m).model key = m.model key) := by
  cases c
  · rw [if_neg (by simp)]
    exact ⟨hwf, rfl, fun _ => rfl⟩
  · rw [if_pos rfl]
    exact ⟨resize_wf hash hwf, resize_items hash m, resize_model hash hwf⟩

theorem bucket_lookup_eq_model (hash : K → Nat) {m : HashMap K V} (hwf : m.Wf hash)
    (key : K) :
    lookupA key (m.buckets.getD (hash key % m.buckets.length) []) = m.model key := by
  unfold HashMap.model lookupA
  rcases hg : bucketFind key (allPairs m.buckets) with _ | p
  · have h1 := (bucketFind_eq_none_iff key _).mp hg
    have h2 : bucketFind key (m.buckets.getD (hash key % m.buckets.length) []) = none :=
      (bucketFind_eq_none_iff key _).mpr
        (fun p hp => h1 p (mem_allPairs_of_mem_getD _ _ p hp))
    rw [h2]
  · obtain ⟨hpmem, hpkey⟩ := bucketFind_some hg
    obtain ⟨i, hi, hpi⟩ := mem_getD_of_mem_allPairs _ p hpmem
    have hib : hash key % m.buckets.length = i := by
      rw [← hpkey]
      exact hwf.1 i hi p hpi
    have ndb : ((m.buckets.getD (hash key % m.buckets.length) []).map Prod.fst).Nodup :=
      List.Nodup.sublist ((getD_sublist m.buckets _).map Prod.fst) hwf.2
    have hfb : bucketFind key (m.buckets.getD (hash key % m.buckets.length) []) = some p :=
      bucketFind_unique ndb (by rw [hib]; exact hpi) hpkey
    rw [hfb]

theorem get_eq_model (hash : K → Nat) {m : HashMap K V} (hwf : m.Wf hash)
    (hlen : 0 < m.buckets.length) (key : K) :
    m.get hash key = some (m.model key) := by
  unfold HashMap.get HashMap.bucket
  rw [if_neg (by omega)]
  rw [Option.map_some']
  rw [← bucket_lookup_eq_model hash hwf key]
  rfl

theorem model_isSome_length_pos {m : HashMap K V} {key : K} {v : V}
    (h : m.model key = some v) : 0 < m.buckets.length := by
  unfold HashMap.model lookupA at h
  rcases hf : bucketFind key (allPairs m.buckets) with _ | p
  · rw [hf] at h
    simp at h
  · obtain ⟨hmem, _⟩ := bucketFind_some hf
    obtain ⟨i, hi, _⟩ := mem_getD_of_mem_allPairs _ p hmem
    omega


/-! ### Characterization of `insert` -/

theorem insertPost_spec (hash : K → Nat) {m1 : HashMap K V} (key : K) (value : V)
    (hwf : m1.Wf hash) (hlen : 0 < m1.buckets.length) :
    ((m1.insertPost hash key value).2).Wf hash
    ∧ ((m1.insertPost hash key value).2).buckets.length = m1.buckets.length
    ∧ (m1.insertPost hash key value).1 = m1.model key
    ∧ ((m1.insertPost hash key value).2).model key = some value
    ∧ (∀ k2, k2 ≠ key → ((m1.insertPost hash key value).2).model k2 = m1.model k2)
    ∧ ((m1.insertPost hash key value).2).items
        = (match m1.model key with
           | some _ => m1.items
           | none => m1.items + 1) := by
  have hblt : hash key % m1.buckets.length < m1.buckets.length := Nat.mod_lt _ hlen
  have hmodel := bucket_lookup_eq_model hash hwf key
  rcases hrep : replaceInBucket (m1.buckets.getD (hash key % m1.buckets.length) [])
      key value with _ | r0
  · -- append path: the key is not in its bucket
    have hfind := (replaceInBucket_eq_none_iff _ key value).mp hrep
    have hmodelnone : m1.model key = none := by
      rw [← hmodel]
      unfold lookupA
      rw [hfind]
      rfl
    have hkeyfresh : ∀ p ∈ allPairs m1.buckets, p.1 ≠ key :=
      (lookupA_eq_none_iff key _).mp hmodelnone
    have hperm := allPairs_pushAt m1.buckets (hash key % m1.buckets.length) (key, value) hblt
    have hlen2 : (pushAt m1.buckets (hash key % m1.buckets.length) (key, value)).length
        = m1.buckets.length := length_pushAt _ _ _
    have hwf2 : (HashMap.mk (pushAt m1.buckets (hash key % m1.buckets.length) (key, value))
        (m1.items + 1)).Wf hash := by
      constructor
      · intro i hi p hp
        simp only at hi hp ⊢
        rw [hlen2] at hi ⊢
        by_cases hib : hash key % m1.buckets.length = i
        · rw [pushAt, hib, getD_set_self _ _ _ _ (by omega)] at hp
          rcases List.mem_append.mp hp with h1 | h2
          · exact hwf.1 i hi p h1
          · have hpk : p = (key, value) := by simpa using h2
            rw [hpk, ← hib]
        · rw [pushAt, getD_set_ne _ _ _ _ _ hib] at hp
          exact hwf.1 i hi p hp
      · show ((allPairs (pushAt m1.buckets (hash key % m1.buckets.length)
          (key, value))).map Prod.fst).Nodup
        refine ((hperm.map Prod.fst).nodup_iff).mpr ?_
        rw [List.map_cons]
        refine List.nodup_cons.mpr ⟨?_, hwf.2⟩
        intro hmem
        obtain ⟨p, hp, hpk⟩ := List.mem_map.mp hmem
        exact hkeyfresh p hp hpk
    have hgetD2 : (pushAt m1.buckets (hash key % m1.buckets.length) (key, value)).getD
        (hash key % m1.buckets.length) []
        = m1.buckets.getD (hash key % m1.buckets.length) [] ++ [(key, value)] :=
      getD_set_self _ _ _ _ hblt
    simp only [HashMap.insertPost, hrep]
    refine ⟨hwf2, hlen2, hmodelnone.symm, ?_, ?_, ?_⟩
    · have hm2 := bucket_lookup_eq_model hash hwf2 key
      rw [← hm2]
      unfold lookupA
      simp only [hlen2, hgetD2]
      rw [bucketFind_append_none _ hfind]
      rw [bucketFind_cons, if_pos rfl]
      rfl
    · intro k2 hk2
      have hm2 := bucket_lookup_eq_model hash hwf2 k2
      rw [← hm2, ← bucket_lookup_eq_model hash hwf k2]
      unfold lookupA
      simp only [hlen2]
      by_cases hb2 : hash k2 % m1.buckets.length = hash key % m1.buckets.length
      · rw [hb2, hgetD2]
        rcases hf2 : bucketFind k2 (m1.buckets.getD (hash key % m1.buckets.length) [])
            with _ | q
        · rw [bucketFind_append_none _ hf2, bucketFind_cons,
            if_neg (fun e => hk2 e.symm), bucketFind_nil]
        · rw [bucketFind_append_some _ hf2]
      · rw [pushAt, getD_set_ne _ _ _ _ _ (fun e => hb2 e.symm)]
    · simp only [hmodelnone]
  · -- replace path: the key is already in its bucket
    obtain ⟨p, hfind, hr1, hkeys, hfindnew, hfindother⟩ := replaceInBucket_some hrep
    have hmodelsome : m1.model key = some p.2 := by
      rw [← hmodel]
      unfold lookupA
      rw [hfind]
      rfl
    have hlen2 : (m1.buckets.set (hash key % m1.buckets.length) r0.2).length
        = m1.buckets.length := List.length_set _ _ _
    have hkeysAll : ((allPairs (m1.buckets.set (hash key % m1.buckets.length) r0.2)).map
        Prod.fst) = ((allPairs m1.buckets).map Prod.fst) := by
      rw [allPairs_set _ _ _ hblt, allPairs_decomp m1.buckets _ hblt]
      simp only [List.map_append]
      rw [hkeys]
    have hwf2 : (HashMap.mk (m1.buckets.set (hash key % m1.buckets.length) r0.2)
        m1.items).Wf hash := by
      constructor
      · intro i hi q hq
        simp only at hi hq ⊢
        rw [hlen2] at hi ⊢
        by_cases hib : hash key % m1.buckets.length = i
        · rw [hib, getD_set_self _ _ _ _ (by omega)] at hq
          have hqk : q.1 ∈ r0.2.map Prod.fst := List.mem_map_of_mem Prod.fst hq
          rw [hkeys] at hqk
          obtain ⟨q2, hq2, hq2k⟩ := List.mem_map.mp hqk
          have hq2mem : q2 ∈ m1.buckets.getD i [] := by rw [← hib]; exact hq2
          have hres := hwf.1 i hi q2 hq2mem
          rw [hq2k] at hres
          exact hres
        · rw [getD_set_ne _ _ _ _ _ hib] at hq
          exact hwf.1 i hi q hq
      · show ((allPairs (m1.buckets.set (hash key % m1.buckets.length) r0.2)).map
          Prod.fst).Nodup
        rw [hkeysAll]
        exact hwf.2
    have hgetD2 : (m1.buckets.set (hash key % m1.buckets.length) r0.2).getD
        (hash key % m1.buckets.length) [] = r0.2 :=
      getD_set_self _ _ _ _ hblt
    simp only [HashMap.insertPost, hrep]
    refine ⟨hwf2, hlen2, ?_, ?_, ?_, ?_⟩
    · rw [hmodelsome, hr1]
    · have hm2 := bucket_lookup_eq_model hash hwf2 key
      rw [← hm2]
      unfold lookupA
      simp only [hlen2, hgetD2]
      rw [hfindnew]
      rfl
    · intro k2 hk2
      have hm2 := bucket_lookup_eq_model hash hwf2 k2
      rw [← hm2, ← bucket_lookup_eq_model hash hwf k2]
      unfold lookupA
      simp only [hlen2]
      by_cases hb2 : hash k2 % m1.buckets.length = hash key % m1.buckets.length
      · rw [hb2, hgetD2]
        rw [hfindother k2 hk2]
      · rw [getD_set_ne _ _ _ _ _ (fun e => hb2 e.symm)]
    · simp only [hmodelsome]

theorem insert_spec (hash : K → Nat) {m : HashMap K V} (key : K) (value : V)
    (hwf : m.Wf hash) :
    ((m.insert hash key value).2).Wf hash
    ∧ 0 < ((m.insert hash key value).2).buckets.length
    ∧ (m.insert hash key value).1 = m.model key
    ∧ ((m.insert hash key value).2).model key = some value
    ∧ (∀ k2, k2 ≠ key → ((m.insert hash key value).2).model k2 = m.model k2)
    ∧ ((m.insert hash key value).2).items
        = (match m.model key with
           | some _ => m.items
           | none => m.items + 1) := by
  obtain ⟨hm1wf, hm1items, hm1model⟩ := grown_facts hash (m.insertGrowCond) hwf
  have hm1len := insert_grown_length_pos hash m
  obtain ⟨h1, h2, h3, h4, h5, h6⟩ := insertPost_spec hash key value hm1wf hm1len
  unfold HashMap.insert
  refine ⟨h1, by rw [h2]; exact hm1len, by rw [h3, hm1model], h4, ?_, ?_⟩
  · intro k2 hk2
    rw [h5 k2 hk2, hm1model]
  · rw [h6, hm1model, hm1items]

theorem insertPost_get_self (hash : K → Nat) (m1 : HashMap K V) (key : K) (value : V)
    (hlen : 0 < m1.buckets.length) :
    ((m1.insertPost hash key value).2).get hash key = some (some value) := by
  have hblt : hash key % m1.buckets.length < m1.buckets.length := Nat.mod_lt _ hlen
  rcases hrep : replaceInBucket (m1.buckets.getD (hash key % m1.buckets.length) [])
      key value with _ | r0
  · have hfind := (replaceInBucket_eq_none_iff _ key value).mp hrep
    simp only [HashMap.insertPost, hrep]
    unfold HashMap.get HashMap.bucket
    rw [if_neg (by simp only [length_pushAt]; omega)]
    rw [Option.map_some']
    simp only [length_pushAt]
    rw [pushAt, getD_set_self _ _ _ _ hblt]
    rw [bucketFind_append_none _ hfind, bucketFind_cons, if_pos rfl]
    rfl
  · obtain ⟨p, hfind, hr1, hkeys, hfindnew, hfindother⟩ := replaceInBucket_some hrep
    simp only [HashMap.insertPost, hrep]
    unfold HashMap.get HashMap.bucket
    rw [if_neg (by simp only [List.length_set]; omega)]
    rw [Option.map_some']
    simp only [List.length_set]
    rw [getD_set_self _ _ _ _ hblt]
    rw [hfindnew]
    rfl

theorem insert_get_self (hash : K → Nat) (m : HashMap K V) (key : K) (value : V) :
    ((m.insert hash key value).2).get hash key = some (some value) :=
  insertPost_get_self hash _ key value (insert_grown_length_pos hash m)

theorem wf_new (hash : K → Nat) : (HashMap.new : HashMap K V).Wf hash := by
  constructor
  · intro i hi
    simp [HashMap.new] at hi
  · show ((allPairs ([] : List (List (K × V)))).map Prod.fst).Nodup
    simp [allPairs_nil]

theorem insertList_preserve (hash : K → Nat) :
    ∀ (ps : List (K × V)) (m : HashMap K V), m.Wf hash →
    (m.insertList hash ps).Wf hash
    ∧ (0 < m.buckets.length → 0 < (m.insertList hash ps).buckets.length)
    ∧ ∀ key, (∀ kv ∈ ps, kv.1 ≠ key) → (m.insertList hash ps).model key = m.model key
  | [], m, hwf => ⟨hwf, fun h => h, fun _ _ => rfl⟩
  | kv :: ps, m, hwf => by
    obtain ⟨h1, h2, _, _, h5, _⟩ := insert_spec hash kv.1 kv.2 hwf
    obtain ⟨g1, g2, g3⟩ := insertList_preserve hash ps (m.insert hash kv.1 kv.2).2 h1
    have hstep : m.insertList hash (kv :: ps)
        = ((m.insert hash kv.1 kv.2).2).insertList hash ps := rfl
    rw [hstep]
    refine ⟨g1, fun _ => g2 h2, ?_⟩
    intro key hkey
    have hne : kv.1 ≠ key := hkey kv (List.mem_cons_self kv ps)
    rw [g3 key (fun kv2 hkv2 => hkey kv2 (List.mem_cons_of_mem _ hkv2))]
    exact h5 key (Ne.symm hne)

theorem insertList_get (hash : K → Nat) :
    ∀ (ps : List (K × V)) (m : HashMap K V), m.Wf hash →
    (ps.map Prod.fst).Nodup →
    ∀ kv ∈ ps, (m.insertList hash ps).model kv.1 = some kv.2
  | [], _, _, _, kv, h => absurd h (by simp)
  | kv0 :: ps, m, hwf, hnd, kv, h => by
    obtain ⟨h1, _, _, h4, _, _⟩ := insert_spec hash kv0.1 kv0.2 hwf
    rw [List.map_cons, List.nodup_cons] at hnd
    have hstep : m.insertList hash (kv0 :: ps)
        = ((m.insert hash kv0.1 kv0.2).2).insertList hash ps := rfl
    rcases List.mem_cons.mp h with rfl | hmem
    · obtain ⟨_, _, g3⟩ := insertList_preserve hash ps _ h1
      rw [hstep]
      rw [g3 kv.1 ?_]
      · exact h4
      · intro kv2 hkv2 e
        exact hnd.1 (by rw [← e]; exact List.mem_map_of_mem Prod.fst hkv2)
    · rw [hstep]
      exact insertList_get hash ps _ h1 hnd.2 kv hmem

theorem from_iter_get (hash : K → Nat) (ps : List (K × V))
    (hnd : (ps.map Prod.fst).Nodup) (kv : K × V) (h : kv ∈ ps) :
    (HashMap.from_iter hash ps).get hash kv.1 = some (some kv.2) := by
  have hwfnew := wf_new (K := K) (V := V) hash
  obtain ⟨g1, _, _⟩ := insertList_preserve hash ps HashMap.new hwfnew
  have hmodel := insertList_get hash ps HashMap.new hwfnew hnd kv h
  have hpos : 0 < ((HashMap.new : HashMap K V).insertList hash ps).buckets.length := by
    rcases ps with _ | ⟨p0, rest⟩
    · simp at h
    · have hstep : (HashMap.new : HashMap K V).insertList hash (p0 :: rest)
          = (((HashMap.new : HashMap K V).insert hash p0.1 p0.2).2).insertList hash rest :=
        rfl
      obtain ⟨w1, w2, _, _, _, _⟩ := insert_spec hash p0.1 p0.2 hwfnew
      obtain ⟨_, q2, _⟩ := insertList_preserve hash rest _ w1
      rw [hstep]
      exact q2 w2
  rw [HashMap.from_iter]
  rw [get_eq_model hash g1 hpos, hmodel]

/-! ### Characterization of `remove` -/

theorem remove_absent (hash : K → Nat) {m : HashMap K V} {key : K}
    (hlen : 0 < m.buckets.length)
    (habs : ∀ p ∈ allPairs m.buckets, p.1 ≠ key) :
    m.remove hash key = some (none, m) := by
  unfold HashMap.remove HashMap.bucket
  rw [if_neg (by omega)]
  simp only [Option.map_some']
  have hfind : bucketFind key (m.buckets.getD (hash key % m.buckets.length) []) = none :=
    (bucketFind_eq_none_iff _ _).mpr
      (fun p hp => habs p (mem_allPairs_of_mem_getD _ _ p hp))
  rw [(bucketPosition_eq_none_iff _ _).mpr hfind]

theorem remove_present_spec (hash : K → Nat) {m : HashMap K V} {key : K} {v : V}
    (hwf : m.Wf hash) (hp : m.model key = some v) :
    ∃ i, bucketPosition key (m.buckets.getD (hash key % m.buckets.length) []) = some i
    ∧ m.remove hash key = some (some v,
        HashMap.mk (m.buckets.set (hash key % m.buckets.length)
          (swapRemove (m.buckets.getD (hash key % m.buckets.length) []) i))
          (m.items - 1))
    ∧ (HashMap.mk (m.buckets.set (hash key % m.buckets.length)
          (swapRemove (m.buckets.getD (hash key % m.buckets.length) []) i))
          (m.items - 1)).get hash key = some none
    ∧ ((key, v) :: allPairs (m.buckets.set (hash key % m.buckets.length)
          (swapRemove (m.buckets.getD (hash key % m.buckets.length) []) i))).Perm
        (allPairs m.buckets) := by
  have hlen : 0 < m.buckets.length := model_isSome_length_pos hp
  have hblt : hash key % m.buckets.length < m.buckets.length := Nat.mod_lt _ hlen
  have hmodel := bucket_lookup_eq_model hash hwf key
  rw [hp] at hmodel
  obtain ⟨p, hfindp, hpv⟩ := Option.map_eq_some'.mp hmodel
  rcases hpos : bucketPosition key (m.buckets.getD (hash key % m.buckets.length) [])
      with _ | i
  · exact absurd hfindp (by
      rw [(bucketPosition_eq_none_iff _ _).mp hpos]
      simp)
  obtain ⟨q, hiq, hqk, hfindq, hilt⟩ := bucketPosition_some hpos
  obtain rfl : p = q := by
    rw [hfindp] at hfindq
    exact Option.some.inj hfindq
  have ndbk : ((m.buckets.getD (hash key % m.buckets.length) []).map Prod.fst).Nodup :=
    List.Nodup.sublist ((getD_sublist m.buckets _).map Prod.fst) hwf.2
  have hsw := swapRemove_cons_perm _ i p hiq
  refine ⟨i, rfl, ?_, ?_, ?_⟩
  · unfold HashMap.remove HashMap.bucket
    rw [if_neg (by omega)]
    simp only [Option.map_some']
    simp only [hpos, hiq, hpv]
  · -- after the removal the key is gone from its (unchanged-index) bucket
    have hfindsw : bucketFind key
        (swapRemove (m.buckets.getD (hash key % m.buckets.length) []) i) = none := by
      have hnd2 : (p.1 :: (swapRemove (m.buckets.getD (hash key % m.buckets.length) [])
          i).map Prod.fst).Nodup := by
        refine ((hsw.map Prod.fst).nodup_iff).mpr ?_
        exact ndbk
      have hnotin : key ∉ (swapRemove (m.buckets.getD (hash key % m.buckets.length) [])
          i).map Prod.fst := by
        have h1 := (List.nodup_cons.mp hnd2).1
        rw [hqk] at h1
        exact h1
      refine (bucketFind_eq_none_iff _ _).mpr ?_
      intro p2 hp2 hp2k
      have hm := List.mem_map_of_mem Prod.fst hp2
      rw [hp2k] at hm
      exact hnotin hm
    unfold HashMap.get HashMap.bucket
    rw [if_neg (by simp only [List.length_set]; omega)]
    rw [Option.map_some']
    simp only [List.length_set]
    rw [getD_set_self _ _ _ _ hblt, hfindsw]
    rfl
  · -- content: exactly the removed pair disappears
    have hq : (key, v) = p := by
      have : p = (p.1, p.2) := rfl
      rw [this, hqk, hpv]
    rw [hq]
    rw [allPairs_set _ _ _ hblt]
    have hd := allPairs_decomp m.buckets _ hblt
    rw [hd]
    simp only [List.append_assoc]
    refine (List.perm_middle.symm).trans ?_
    refine List.Perm.append_left _ ?_
    have := hsw.append_right (allPairs (m.buckets.drop (hash key % m.buckets.length + 1)))
    exact this

/-! ### `CountInv` preservation lemmas -/

theorem countinv_new : (HashMap.new : HashMap K V).CountInv := rfl

theorem resize_countinv (hash : K → Nat) {m : HashMap K V} (hinv : m.CountInv) :
    (m.resize hash).CountInv := by
  show (m.resize hash).items = _
  rw [resize_items, (resize_perm hash m).length_eq]
  exact hinv

theorem grown_countinv (hash : K → Nat) {m : HashMap K V} (c : Bool) (hinv : m.CountInv) :
    (if c = true then m.resize hash else m).CountInv := by
  cases c
  · rw [if_neg (by simp)]
    exact hinv
  · rw [if_pos rfl]
    exact resize_countinv hash hinv

theorem insertPost_countinv (hash : K → Nat) {m1 : HashMap K V} (key : K) (value : V)
    (hlen : 0 < m1.buckets.length) (hinv : m1.CountInv) :
    ((m1.insertPost hash key value).2).CountInv := by
  have hblt : hash key % m1.buckets.length < m1.buckets.length := Nat.mod_lt _ hlen
  rcases hrep : replaceInBucket (m1.buckets.getD (hash key % m1.buckets.length) [])
      key value with _ | r0
  · simp only [HashMap.insertPost, hrep]
    show m1.items + 1 = _
    rw [(allPairs_pushAt m1.buckets _ (key, value) hblt).length_eq]
    rw [List.length_cons]
    rw [hinv]
  · obtain ⟨p, hfind, hr1, hkeys, _, _⟩ := replaceInBucket_some hrep
    have hlenr : r0.2.length = (m1.buckets.getD (hash key % m1.buckets.length) []).length := by
      have := congrArg List.length hkeys
      simpa using this
    simp only [HashMap.insertPost, hrep]
    show m1.items = (allPairs (m1.buckets.set (hash key % m1.buckets.length) r0.2)).length
    rw [allPairs_set _ _ _ hblt, hinv]
    have hd := congrArg List.length (allPairs_decomp m1.buckets _ hblt)
    simp only [List.length_append] at hd ⊢
    omega

theorem remove_eq_cases (hash : K → Nat) (m : HashMap K V) (key : K) :
    m.remove hash key = none
    ∨ (∃ i p, 0 < m.buckets.length
        ∧ bucketPosition key (m.buckets.getD (hash key % m.buckets.length) []) = some i
        ∧ (m.buckets.getD (hash key % m.buckets.length) [])[i]? = some p
        ∧ m.remove hash key = some (some p.2,
            HashMap.mk (m.buckets.set (hash key % m.buckets.length)
              (swapRemove (m.buckets.getD (hash key % m.buckets.length) []) i))
              (m.items - 1)))
    ∨ m.remove hash key = some (none, m) := by
  unfold HashMap.remove HashMap.bucket
  by_cases hlen : m.buckets.length = 0
  · rw [if_pos hlen]
    exact Or.inl rfl
  · rw [if_neg hlen]
    simp only [Option.map_some']
    rcases hpos : bucketPosition key (m.buckets.getD (hash key % m.buckets.length) [])
        with _ | i
    · exact Or.inr (Or.inr rfl)
    · rcases hiq : (m.buckets.getD (hash key % m.buckets.length) [])[i]? with _ | p
      · refine Or.inr (Or.inr ?_)
        simp only [hiq]
      · refine Or.inr (Or.inl ⟨i, p, by omega, rfl, hiq, ?_⟩)
        simp only [hiq]

theorem remove_countinv (hash : K → Nat) {m : HashMap K V} {key : K}
    {r : Option V × HashMap K V} (hinv : m.CountInv)
    (h : m.remove hash key = some r) : r.2.CountInv := by
  rcases remove_eq_cases hash m key with h0 | ⟨i, p, hlen, hpos, hiq, heq⟩ | heq
  · rw [h0] at h
    cases h
  · rw [heq] at h
    obtain rfl : _ = r := Option.some.inj h
    have hblt : hash key % m.buckets.length < m.buckets.length := Nat.mod_lt _ hlen
    have hsl := swapRemove_length hiq
    have hdc := congrArg List.length (allPairs_decomp m.buckets _ hblt)
    rw [List.length_append, List.length_append] at hdc
    show m.items - 1 = _
    rw [allPairs_set _ _ _ hblt]
    rw [List.length_append, List.length_append]
    rw [HashMap.CountInv] at hinv
    omega
  · rw [heq] at h
    obtain rfl : _ = r := Option.some.inj h
    exact hinv

/-! ### Characterization of `entry` and the entry operations -/

theorem entryPost_spec (hash : K → Nat) {m1 : HashMap K V} (key : K)
    (hwf : m1.Wf hash) :
    (∀ v0, m1.model key = some v0 →
      ∃ i q, m1.entryPost hash key
          = (m1, Entry.Occupied (hash key % m1.buckets.length) i)
        ∧ bucketGet m1.buckets (hash key % m1.buckets.length) i = some q
        ∧ q.1 = key ∧ q.2 = v0)
    ∧ (m1.model key = none →
      m1.entryPost hash key = (m1, Entry.Vacant key (hash key % m1.buckets.length))) := by
  have hmodel := bucket_lookup_eq_model hash hwf key
  constructor
  · intro v0 h0
    rw [h0] at hmodel
    obtain ⟨p, hfindp, hpv⟩ := Option.map_eq_some'.mp hmodel
    rcases hpos : bucketPosition key (m1.buckets.getD (hash key % m1.buckets.length) [])
        with _ | i
    · exact absurd hfindp (by rw [(bucketPosition_eq_none_iff _ _).mp hpos]; simp)
    · obtain ⟨q, hiq, hqk, hfindq, _⟩ := bucketPosition_some hpos
      obtain rfl : p = q := by
        rw [hfindp] at hfindq
        exact Option.some.inj hfindq
      refine ⟨i, p, ?_, hiq, hqk, hpv⟩
      simp only [HashMap.entryPost, hpos]
  · intro h0
    rw [h0] at hmodel
    have hfind : bucketFind key (m1.buckets.getD (hash key % m1.buckets.length) [])
        = none := Option.map_eq_none'.mp hmodel
    simp only [HashMap.entryPost, (bucketPosition_eq_none_iff _ _).mpr hfind]

theorem vacant_insert_countinv {m1 : HashMap K V} {b : Nat} (hb : b < m1.buckets.length)
    (hinv : m1.CountInv) (key : K) (value : V) :
    ((VacantEntry.insert m1 key b value).1).CountInv := by
  show m1.items + 1 = (allPairs (pushAt m1.buckets b (key, value))).length
  rw [(allPairs_pushAt m1.buckets b (key, value) hb).length_eq, List.length_cons, hinv]

theorem get_push_self (hash : K → Nat) {m1 : HashMap K V} (key : K) (value : V) (n : Nat)
    (hlen : 0 < m1.buckets.length)
    (hfind : bucketFind key (m1.buckets.getD (hash key % m1.buckets.length) []) = none) :
    (HashMap.mk (pushAt m1.buckets (hash key % m1.buckets.length) (key, value)) n).get
      hash key = some (some value) := by
  unfold HashMap.get HashMap.bucket
  rw [if_neg (by simp only [length_pushAt]; omega)]
  simp only [Option.map_some', length_pushAt]
  rw [pushAt, getD_set_self _ _ _ _ (Nat.mod_lt _ hlen)]
  rw [bucketFind_append_none _ hfind, bucketFind_cons, if_pos rfl]
  rfl

theorem entryPost_or_insert_with_countinv (hash : K → Nat) {m1 : HashMap K V}
    (key : K) (maker : Unit → V) (hlen : 0 < m1.buckets.length) (hinv : m1.CountInv) :
    ((Entry.or_insert_with (m1.entryPost hash key) maker).1.1).CountInv := by
  rcases hpos : bucketPosition key (m1.buckets.getD (hash key % m1.buckets.length) [])
      with _ | i
  · simp only [HashMap.entryPost, hpos, Entry.or_insert_with]
    exact vacant_insert_countinv (Nat.mod_lt _ hlen) hinv key (maker ())
  · simp only [HashMap.entryPost, hpos, Entry.or_insert_with]
    exact hinv

theorem entryPost_or_insert_countinv (hash : K → Nat) {m1 : HashMap K V}
    (key : K) (value : V) (hlen : 0 < m1.buckets.length) (hinv : m1.CountInv) :
    ((Entry.or_insert (m1.entryPost hash key) value).1).CountInv := by
  rcases hpos : bucketPosition key (m1.buckets.getD (hash key % m1.buckets.length) [])
      with _ | i
  · simp only [HashMap.entryPost, hpos, Entry.or_insert]
    exact vacant_insert_countinv (Nat.mod_lt _ hlen) hinv key value
  · simp only [HashMap.entryPost, hpos, Entry.or_insert]
    exact hinv

/-! ### Characterization of the borrowing iterator -/

theorem allPairs_drop_succ : ∀ (bs : List (List α)) (b : Nat),
    allPairs (bs.drop b) = bs.getD b [] ++ allPairs (bs.drop (b + 1))
  | [], b => by simp [allPairs_nil, List.getD]
  | x :: xs, 0 => by simp [allPairs_cons]
  | x :: xs, b + 1 => by
    simpa using allPairs_drop_succ xs b

theorem iterNext_eq (m : HashMap K V) (it : Iter) :
    Iter.next m it
      = if _h : it.bucket < m.buckets.length then
          match (m.buckets.getD it.bucket [])[it.atPos]? with
          | some kv => some (kv, Iter.mk it.bucket (it.atPos + 1))
          | none => Iter.next m (Iter.mk (it.bucket + 1) 0)
        else none := by
  rw [Iter.next]

theorem iterNext_stop {m : HashMap K V} {b a : Nat} (hb : ¬ b < m.buckets.length) :
    Iter.next m (Iter.mk b a) = none := by
  rw [iterNext_eq]
  exact dif_neg hb

theorem iterNext_yield {m : HashMap K V} {b a : Nat} {kv : K × V}
    (hb : b < m.buckets.length) (ha : (m.buckets.getD b [])[a]? = some kv) :
    Iter.next m (Iter.mk b a) = some (kv, Iter.mk b (a + 1)) := by
  rw [iterNext_eq, dif_pos hb]
  simp only [ha]

theorem iterNext_skip {m : HashMap K V} {b a : Nat}
    (hb : b < m.buckets.length) (ha : (m.buckets.getD b [])[a]? = none) :
    Iter.next m (Iter.mk b a) = Iter.next m (Iter.mk (b + 1) 0) := by
  rw [iterNext_eq, dif_pos hb]
  simp only [ha]

theorem iterCollect_trace (m : HashMap K V) :
    ∀ (n fuel b a : Nat), (m.buckets.length - b) + fuel ≤ n →
    ((m.buckets.getD b []).length - a) + (allPairs (m.buckets.drop (b + 1))).length ≤ fuel →
    iterCollect m fuel (Iter.mk b a)
      = (m.buckets.getD b []).drop a ++ allPairs (m.buckets.drop (b + 1)) := by
  intro n
  induction n with
  | zero =>
    intro fuel b a hn hfuel
    have hfz : fuel = 0 := by omega
    subst hfz
    have h1 : (m.buckets.getD b []).drop a = [] :=
      List.drop_eq_nil_of_le (by omega)
    have h2 : allPairs (m.buckets.drop (b + 1)) = [] :=
      List.length_eq_zero.mp (by omega)
    rw [h1, h2]
    rfl
  | succ n ih =>
    intro fuel b a hn hfuel
    by_cases hb : b < m.buckets.length
    · rcases hga : (m.buckets.getD b [])[a]? with _ | kv
      · -- current bucket exhausted at this offset
        have ha' : (m.buckets.getD b []).length ≤ a := by
          by_contra hlt
          rw [List.getElem?_eq_getElem (by omega)] at hga
          simp at hga
        have htr : (m.buckets.getD b []).drop a = [] := List.drop_eq_nil_of_le ha'
        have hstep2 : allPairs (m.buckets.drop (b + 1))
            = m.buckets.getD (b + 1) [] ++ allPairs (m.buckets.drop (b + 1 + 1)) :=
          allPairs_drop_succ m.buckets (b + 1)
        rcases fuel with _ | f
        · have h2 : allPairs (m.buckets.drop (b + 1)) = [] :=
            List.length_eq_zero.mp (by omega)
          rw [htr, h2]
          rfl
        · have hstep : iterCollect m (f + 1) (Iter.mk b a)
              = iterCollect m (f + 1) (Iter.mk (b + 1) 0) := by
            simp only [iterCollect]
            rw [iterNext_skip hb hga]
          rw [hstep]
          rw [ih (f + 1) (b + 1) 0 (by omega) ?_]
          · rw [htr, List.nil_append, List.drop_zero, hstep2]
          · have hc := congrArg List.length hstep2
            simp only [List.length_append] at hc
            omega
      · -- yield one pair
        obtain ⟨halt, hget⟩ := List.getElem?_eq_some.mp hga
        rcases fuel with _ | f
        · omega
        · have hstep : iterCollect m (f + 1) (Iter.mk b a)
              = kv :: iterCollect m f (Iter.mk b (a + 1)) := by
            simp only [iterCollect]
            rw [iterNext_yield hb hga]
          rw [hstep]
          rw [ih f b (a + 1) (by omega) (by omega)]
          rw [List.drop_eq_getElem_cons halt, hget]
          rfl
    · -- ran off the end of the bucket array
      have h1 : (m.buckets.getD b []).drop a = [] := by
        rw [List.getD_eq_default _ _ (by omega)]
        exact List.drop_nil
      have h2 : allPairs (m.buckets.drop (b + 1)) = [] := by
        rw [List.drop_eq_nil_of_le (by omega)]
        rfl
      rw [h1, h2]
      rcases fuel with _ | f
      · rfl
      · simp only [iterCollect]
        rw [iterNext_stop hb]
        rfl

theorem iterCollect_all (m : HashMap K V) (fuel : Nat)
    (hfuel : (allPairs m.buckets).length ≤ fuel) :
    iterCollect m fuel (m.iter) = allPairs m.buckets := by
  have hd : allPairs m.buckets
      = m.buckets.getD 0 [] ++ allPairs (m.buckets.drop (0 + 1)) := by
    have h0 := allPairs_drop_succ m.buckets 0
    rwa [List.drop_zero] at h0
  have hc := congrArg List.length hd
  rw [List.length_append] at hc
  have htr := iterCollect_trace m (m.buckets.length + fuel) fuel 0 0 (by omega) (by omega)
  show iterCollect m fuel (Iter.mk 0 0) = allPairs m.buckets
  rw [htr, List.drop_zero]
  exact hd.symm

/-! ### The claims -/

/-- Claim C1: the claim says a read operation (`get`, `contains_key`, `remove`) on a
table with zero buckets (a freshly constructed table) returns an absent result
and does not fault.  The code instead computes `hasher.finish() % 0`, a
remainder by zero, which panics; in the embedding every read on `HashMap.new`
returns the panic marker `none` rather than the absent result `some none`. -/
theorem claim1_zero_bucket_reads_panic (hash : K → Nat) (key : K) :
    (HashMap.new : HashMap K V).get hash key = none
    ∧ (HashMap.new : HashMap K V).contains_key hash key = none
    ∧ (HashMap.new : HashMap K V).remove hash key = none :=
  ⟨rfl, rfl, rfl⟩

/-- Claim C2 counterexample: the claim says `entry` performs the same growth check
as `insert`.  On the reachable table with four buckets and three items
(inserting keys 1, 2, 3 into a fresh table), the insert-path condition
`items > len/4` holds (3 > 1) while the entry-path condition
`items > 3*len/4` fails (3 > 3 is false), so the two resize triggers differ. -/
theorem claim2_growth_check_counterexample :
    exampleTable4x3.insertGrowCond = true
    ∧ exampleTable4x3.entryGrowCond = false
    ∧ exampleTable4x3.insertGrowCond ≠ exampleTable4x3.entryGrowCond := by
  refine ⟨by decide, by decide, by decide⟩

/-- Claim C2 amended: the entry path triggers a resize on
`bucket_count == 0 || item_count > 3*bucket_count/4`, which implies the
insert-path trigger `bucket_count == 0 || item_count > bucket_count/4` —
whenever `entry` resizes, `insert` would have resized on the same state, but
not conversely. -/
theorem claim2_entry_growth_implies_insert_growth (m : HashMap K V)
    (h : m.entryGrowCond = true) : m.insertGrowCond = true := by
  unfold HashMap.entryGrowCond at h
  unfold HashMap.insertGrowCond
  rcases Bool.or_eq_true_iff.mp h with h1 | h2
  · exact Bool.or_eq_true_iff.mpr (Or.inl h1)
  · refine Bool.or_eq_true_iff.mpr (Or.inr ?_)
    have h2' := of_decide_eq_true h2
    have hle : m.buckets.length / 4 ≤ 3 * m.buckets.length / 4 :=
      Nat.div_le_div_right (by omega)
    exact decide_eq_true (by omega)

/-- Claim C2 amended, witness at the empty table, where both triggers fire. -/
theorem claim2_entry_growth_implies_insert_growth_witness :
    (HashMap.new : HashMap Nat Nat).entryGrowCond = true
    ∧ (HashMap.new : HashMap Nat Nat).insertGrowCond = true :=
  ⟨by decide, claim2_entry_growth_implies_insert_growth HashMap.new (by decide)⟩

/-- Claim C3: inserting `(key, value)` into any table and then getting `key` returns
`value`; and building a table from any list of pairs with pairwise-distinct
keys (for instance a list long enough to force multiple resizes) and then
getting each key returns that key's value — resizing loses and duplicates
nothing. -/
theorem claim3_insert_get_roundtrip (hash : K → Nat) :
    (∀ (m : HashMap K V) (key : K) (value : V),
      ((m.insert hash key value).2).get hash key = some (some value))
    ∧ (∀ ps : List (K × V), (ps.map Prod.fst).Nodup →
      ∀ kv ∈ ps, (HashMap.from_iter hash ps).get hash kv.1 = some (some kv.2)) :=
  ⟨fun m key value => insert_get_self hash m key value,
   fun ps hnd kv hm => from_iter_get hash ps hnd kv hm⟩

/-- Claim C3 witness: six distinct keys inserted from scratch (forcing resizes at
bucket counts 1, 2, 4, 8, 16 and 32), then key 3 yields its value 4. -/
theorem claim3_insert_get_roundtrip_witness :
    ((([(0, 1), (1, 2), (2, 3), (3, 4), (4, 5), (5, 6)] : List (Nat × Nat)).map
      Prod.fst).Nodup)
    ∧ ((3, 4) ∈ ([(0, 1), (1, 2), (2, 3), (3, 4), (4, 5), (5, 6)] : List (Nat × Nat)))
    ∧ (HashMap.from_iter (fun n => n)
        ([(0, 1), (1, 2), (2, 3), (3, 4), (4, 5), (5, 6)] : List (Nat × Nat))).get
        (fun n => n) 3 = some (some 4) :=
  ⟨by decide, by decide,
    (claim3_insert_get_roundtrip (fun n => n)).2 _ (by decide) (3, 4) (by decide)⟩

/-- Claim C4: on a well-formed table, after `insert(key, v1)` a second
`insert(key, v2)` returns `some v1`, a subsequent `get(key)` returns `v2`, and
the item count (`len`) is unchanged by the second insert. -/
theorem claim4_overwrite (hash : K → Nat) (m : HashMap K V) (key : K) (v1 v2 : V)
    (hwf : m.Wf hash) :
    ((((m.insert hash key v1).2).insert hash key v2)).1 = some v1
    ∧ (((((m.insert hash key v1).2).insert hash key v2)).2).get hash key
        = some (some v2)
    ∧ (((((m.insert hash key v1).2).insert hash key v2)).2).len
        = ((m.insert hash key v1).2).len := by
  obtain ⟨h1, h2, h3, h4, h5, h6⟩ := insert_spec hash key v1 hwf
  obtain ⟨g1, g2, g3, g4, g5, g6⟩ := insert_spec hash key v2 h1
  refine ⟨by rw [g3, h4], ?_, ?_⟩
  · exact insert_get_self hash _ key v2
  · show (((m.insert hash key v1).2).insert hash key v2).2.items
      = ((m.insert hash key v1).2).items
    rw [g6, h4]

/-- Claim C4 witness at the fresh table with key 1, values 5 then 7. -/
theorem claim4_overwrite_witness :
    (HashMap.new : HashMap Nat Nat).Wf (fun n => n)
    ∧ ((((HashMap.new : HashMap Nat Nat).insert (fun n => n) 1 5).2).insert
        (fun n => n) 1 7).1 = some 5 :=
  ⟨by decide, (claim4_overwrite (fun n => n) HashMap.new 1 5 7 (by decide)).1⟩

/-- Claim C5: on a well-formed, correctly counted table, removing a present key
returns its stored value, decrements the item count by exactly one, leaves a
table on which `get` of that key is absent, and performs the removal by
`swap_remove` (swap-with-last) at the key's position inside its bucket; the
stored pairs of the result are exactly the original pairs minus the removed
one. -/
theorem claim5_remove_present (hash : K → Nat) (m : HashMap K V) (key : K) (v : V)
    (hwf : m.Wf hash) (hinv : m.CountInv) (hp : m.model key = some v) :
    ∃ i m2,
      bucketPosition key (m.buckets.getD (hash key % m.buckets.length) []) = some i
      ∧ m2 = HashMap.mk (m.buckets.set (hash key % m.buckets.length)
          (swapRemove (m.buckets.getD (hash key % m.buckets.length) []) i))
          (m.items - 1)
      ∧ m.remove hash key = some (some v, m2)
      ∧ m2.items + 1 = m.items
      ∧ m2.len + 1 = m.len
      ∧ m2.get hash key = some none
      ∧ ((key, v) :: allPairs m2.buckets).Perm (allPairs m.buckets) := by
  obtain ⟨i, hpos, hrem, hget, hperm⟩ := remove_present_spec hash hwf hp
  have hitems : m.items - 1 + 1 = m.items := by
    obtain ⟨q, hiq, _, _, hilt⟩ := bucketPosition_some hpos
    have hblt : hash key % m.buckets.length < m.buckets.length :=
      Nat.mod_lt _ (model_isSome_length_pos hp)
    have hdc := congrArg List.length (allPairs_decomp m.buckets _ hblt)
    rw [List.length_append, List.length_append] at hdc
    rw [HashMap.CountInv] at hinv
    omega
  exact ⟨i, _, hpos, rfl, hrem, hitems, hitems, hget, hperm⟩

/-- Claim C5 witness: removing the present key 2 from the concrete three-item table
returns its value 20 and shrinks the count from 3 to 2. -/
theorem claim5_remove_present_witness :
    exampleTable4x3.Wf (fun n => n)
    ∧ exampleTable4x3.CountInv
    ∧ exampleTable4x3.model 2 = some 20
    ∧ ∃ m2, exampleTable4x3.remove (fun n => n) 2 = some (some 20, m2)
        ∧ m2.items + 1 = exampleTable4x3.items
        ∧ m2.get (fun n => n) 2 = some none := by
  obtain ⟨i, m2, _, _, hrem, hitems, _, hget, _⟩ :=
    claim5_remove_present (fun n => n) exampleTable4x3 2 20
      (by decide) (by decide) (by decide)
  exact ⟨by decide, by decide, by decide, m2, hrem, hitems, hget⟩

/-- Claim C6 counterexample: the claim says removing an absent key from any table
returns an absent result without mutation.  On the freshly constructed table
(zero buckets) every key is absent, yet `remove` panics on the
remainder-by-zero in the bucket-index computation (the `none` of the
embedding) instead of returning the absent result. -/
theorem claim6_remove_absent_counterexample :
    HashMap.remove (fun n => n) (HashMap.new : HashMap Nat Nat) 0 = none
    ∧ HashMap.remove (fun n => n) (HashMap.new : HashMap Nat Nat) 0
        ≠ some (none, (HashMap.new : HashMap Nat Nat)) :=
  ⟨rfl, by decide⟩

/-- Claim C6 amended: on a table with at least one bucket, removing a key that is
present in no stored pair returns the absent result and the table itself —
no mutation of buckets or item count at all. -/
theorem claim6_remove_absent_no_mutation (hash : K → Nat) (m : HashMap K V) (key : K)
    (hlen : 0 < m.buckets.length)
    (habs : ∀ p ∈ allPairs m.buckets, p.1 ≠ key) :
    m.remove hash key = some (none, m) :=
  remove_absent hash hlen habs

/-- Claim C6 amended, witness: removing the absent key 2 from a one-bucket table
holding only key 1 returns absent and the unchanged table. -/
theorem claim6_remove_absent_no_mutation_witness :
    0 < (((HashMap.new : HashMap Nat Nat).insert (fun n => n) 1 10).2).buckets.length
    ∧ (∀ p ∈ allPairs (((HashMap.new : HashMap Nat Nat).insert
        (fun n => n) 1 10).2).buckets, p.1 ≠ 2)
    ∧ (((HashMap.new : HashMap Nat Nat).insert (fun n => n) 1 10).2).remove
        (fun n => n) 2
        = some (none, ((HashMap.new : HashMap Nat Nat).insert (fun n => n) 1 10).2) :=
  ⟨by decide, by decide,
    claim6_remove_absent_no_mutation (fun n => n) _ 2 (by decide) (by decide)⟩

/-- Claim C7: the counting invariant `items == sum(len(bucket))` holds for the
freshly constructed table and is preserved by `insert`, `resize`, every
non-panicking `remove`, and the entry API followed by `or_insert`,
`or_insert_with` or `or_default`. -/
theorem claim7_count_invariant [Inhabited V] (hash : K → Nat) :
    (HashMap.new : HashMap K V).CountInv
    ∧ (∀ (m : HashMap K V) (key : K) (value : V), m.CountInv →
        ((m.insert hash key value).2).CountInv)
    ∧ (∀ m : HashMap K V, m.CountInv → (m.resize hash).CountInv)
    ∧ (∀ (m : HashMap K V) (key : K) (r : Option V × HashMap K V), m.CountInv →
        m.remove hash key = some r → r.2.CountInv)
    ∧ (∀ (m : HashMap K V) (key : K) (value : V), m.CountInv →
        ((m.entry_or_insert hash key value).1).CountInv)
    ∧ (∀ (m : HashMap K V) (key : K) (maker : Unit → V), m.CountInv →
        ((m.entry_or_insert_with hash key maker).1.1).CountInv)
    ∧ (∀ (m : HashMap K V) (key : K), m.CountInv →
        ((m.entry_or_default hash key).1.1).CountInv) := by
  refine ⟨countinv_new, ?_, ?_, ?_, ?_, ?_, ?_⟩
  · intro m key value hinv
    exact insertPost_countinv hash key value (insert_grown_length_pos hash m)
      (grown_countinv hash _ hinv)
  · intro m hinv
    exact resize_countinv hash hinv
  · intro m key r hinv h
    exact remove_countinv hash hinv h
  · intro m key value hinv
    exact entryPost_or_insert_countinv hash key value (entry_grown_length_pos hash m)
      (grown_countinv hash _ hinv)
  · intro m key maker hinv
    exact entryPost_or_insert_with_countinv hash key maker (entry_grown_length_pos hash m)
      (grown_countinv hash _ hinv)
  · intro m key hinv
    exact entryPost_or_insert_with_countinv hash key (fun _ => default)
      (entry_grown_length_pos hash m) (grown_countinv hash _ hinv)

/-- Claim C7 witness: the invariant holds for the fresh table and for the table
obtained by one insert, through the theorem's insert conjunct. -/
theorem claim7_count_invariant_witness :
    (HashMap.new : HashMap Nat Nat).CountInv
    ∧ ((((HashMap.new : HashMap Nat Nat).insert (fun n => n) 1 10)).2).CountInv :=
  ⟨by decide, (claim7_count_invariant (fun n => n)).2.1 HashMap.new 1 10 (by decide)⟩

theorem entryPost_or_insert_with_spec (hash : K → Nat) {m1 : HashMap K V} (key : K)
    (maker : Unit → V) (hwf : m1.Wf hash) :
    (∀ v0, m1.model key = some v0 →
      ∀ mk2 : Unit → V, Entry.or_insert_with (m1.entryPost hash key) mk2
          = ((m1, some v0), 0))
    ∧ (m1.model key = none →
      Entry.or_insert_with (m1.entryPost hash key) maker
        = ((HashMap.mk (pushAt m1.buckets (hash key % m1.buckets.length)
            (key, maker ())) (m1.items + 1), some (maker ())), 1)) := by
  obtain ⟨hocc, hvac⟩ := entryPost_spec hash key hwf
  constructor
  · intro v0 h0 mk2
    obtain ⟨i, q, hent, hbg, hqk, hqv⟩ := hocc v0 h0
    rw [hent]
    show ((m1, (bucketGet m1.buckets (hash key % m1.buckets.length) i).map Prod.snd), 0)
        = ((m1, some v0), 0)
    rw [hbg, Option.map_some', hqv]
  · intro h0
    rw [hvac h0]
    rfl

/-- Claim C8: on a well-formed table, `entry(key).or_insert_with(producer)` invokes
the producer zero times when the key is present — the result is independent of
the producer, the existing value is returned, and neither `get key` nor the
item count changes — and exactly once when absent, in which case the produced
value is returned, a subsequent `get key` yields it, and the item count grows
by one. -/
theorem claim8_or_insert_with (hash : K → Nat) (m : HashMap K V) (key : K)
    (maker : Unit → V) (hwf : m.Wf hash) :
    (∀ v0, m.model key = some v0 →
      (m.entry_or_insert_with hash key maker).2 = 0
      ∧ (m.entry_or_insert_with hash key maker).1.2 = some v0
      ∧ ((m.entry_or_insert_with hash key maker).1.1).items = m.items
      ∧ ((m.entry_or_insert_with hash key maker).1.1).get hash key = some (some v0)
      ∧ (∀ maker2 : Unit → V, m.entry_or_insert_with hash key maker2
          = m.entry_or_insert_with hash key maker))
    ∧ (m.model key = none →
      (m.entry_or_insert_with hash key maker).2 = 1
      ∧ (m.entry_or_insert_with hash key maker).1.2 = some (maker ())
      ∧ ((m.entry_or_insert_with hash key maker).1.1).items = m.items + 1
      ∧ ((m.entry_or_insert_with hash key maker).1.1).get hash key
          = some (some (maker ()))) := by
  obtain ⟨hm1wf, hm1items, hm1model⟩ := grown_facts hash (m.entryGrowCond) hwf
  have hm1len := entry_grown_length_pos hash m
  obtain ⟨hocc, hvac⟩ := entryPost_or_insert_with_spec hash key maker hm1wf
  constructor
  · intro v0 h0
    have h0' : (if m.entryGrowCond = true then m.resize hash else m).model key
        = some v0 := by
      rw [hm1model]
      exact h0
    have hres := hocc v0 h0'
    refine ⟨?_, ?_, ?_, ?_, ?_⟩
    · show (Entry.or_insert_with ((if m.entryGrowCond = true then m.resize hash
        else m).entryPost hash key) maker).2 = 0
      rw [hres maker]
    · show (Entry.or_insert_with ((if m.entryGrowCond = true then m.resize hash
        else m).entryPost hash key) maker).1.2 = some v0
      rw [hres maker]
    · show ((Entry.or_insert_with ((if m.entryGrowCond = true then m.resize hash
        else m).entryPost hash key) maker).1.1).items = m.items
      rw [hres maker]
      exact hm1items
    · show ((Entry.or_insert_with ((if m.entryGrowCond = true then m.resize hash
        else m).entryPost hash key) maker).1.1).get hash key = some (some v0)
      rw [hres maker]
      show (if m.entryGrowCond = true then m.resize hash else m).get hash key
          = some (some v0)
      rw [get_eq_model hash hm1wf hm1len key, h0']
    · intro maker2
      show Entry.or_insert_with ((if m.entryGrowCond = true then m.resize hash
          else m).entryPost hash key) maker2
        = Entry.or_insert_with ((if m.entryGrowCond = true then m.resize hash
          else m).entryPost hash key) maker
      rw [hres maker, hres maker2]
  · intro h0
    have h0' : (if m.entryGrowCond = true then m.resize hash else m).model key
        = none := by
      rw [hm1model]
      exact h0
    have hres := hvac h0'
    have hfind : bucketFind key
        ((if m.entryGrowCond = true then m.resize hash else m).buckets.getD
          (hash key % (if m.entryGrowCond = true then m.resize hash
            else m).buckets.length) []) = none := by
      have hl := bucket_lookup_eq_model hash hm1wf key
      rw [h0'] at hl
      unfold lookupA at hl
      exact Option.map_eq_none'.mp hl
    refine ⟨?_, ?_, ?_, ?_⟩
    · show (Entry.or_insert_with ((if m.entryGrowCond = true then m.resize hash
        else m).entryPost hash key) maker).2 = 1
      rw [hres]
    · show (Entry.or_insert_with ((if m.entryGrowCond = true then m.resize hash
        else m).entryPost hash key) maker).1.2 = some (maker ())
      rw [hres]
    · show ((Entry.or_insert_with ((if m.entryGrowCond = true then m.resize hash
        else m).entryPost hash key) maker).1.1).items = m.items + 1
      rw [hres]
      show (if m.entryGrowCond = true then m.resize hash else m).items + 1
          = m.items + 1
      rw [hm1items]
    · show ((Entry.or_insert_with ((if m.entryGrowCond = true then m.resize hash
        else m).entryPost hash key) maker).1.1).get hash key = some (some (maker ()))
      rw [hres]
      exact get_push_self hash key (maker ()) _ hm1len hfind

/-- Claim C8 witness, on the absent path: inserting lazily under key 5 into a fresh
table invokes the producer once and `get 5` yields the produced value. -/
theorem claim8_or_insert_with_witness :
    (HashMap.new : HashMap Nat Nat).Wf (fun n => n)
    ∧ (HashMap.new : HashMap Nat Nat).model 5 = none
    ∧ ((HashMap.new : HashMap Nat Nat).entry_or_insert_with (fun n => n) 5
        (fun _ => 50)).2 = 1
    ∧ ((HashMap.new : HashMap Nat Nat).entry_or_insert_with (fun n => n) 5
        (fun _ => 50)).1.1.get (fun n => n) 5 = some (some 50) := by
  have h := (claim8_or_insert_with (fun n => n) HashMap.new 5 (fun _ => 50)
    (by decide)).2 (by decide)
  exact ⟨by decide, by decide, h.1, h.2.2.2⟩

/-- Claim C9: driving the borrowing iterator from its initial cursor with enough
`next` calls yields exactly the stored pairs, every pair exactly once, in
bucket-then-offset order, and then terminates; under the counting invariant
the number of yielded pairs is exactly `len()`. -/
theorem claim9_iteration_complete :
    (∀ (m : HashMap K V) (fuel : Nat), (allPairs m.buckets).length ≤ fuel →
      iterCollect m fuel (m.iter) = allPairs m.buckets)
    ∧ (∀ m : HashMap K V, m.CountInv →
      (iterCollect m ((allPairs m.buckets).length) (m.iter)).length = m.len) := by
  refine ⟨fun m fuel h => iterCollect_all m fuel h, ?_⟩
  intro m hinv
  rw [iterCollect_all m _ (Nat.le_refl _)]
  exact hinv.symm

/-- Claim C9 witness: the three-item table yields its three stored pairs and the
count matches `len()`. -/
theorem claim9_iteration_complete_witness :
    (allPairs exampleTable4x3.buckets).length ≤ 10
    ∧ iterCollect exampleTable4x3 10 (exampleTable4x3.iter)
        = allPairs exampleTable4x3.buckets
    ∧ exampleTable4x3.CountInv
    ∧ (iterCollect exampleTable4x3 ((allPairs exampleTable4x3.buckets).length)
        (exampleTable4x3.iter)).length = exampleTable4x3.len :=
  ⟨by decide,
   (claim9_iteration_complete (K := Nat) (V := Nat)).1 exampleTable4x3 10 (by decide),
   by decide,
   (claim9_iteration_complete (K := Nat) (V := Nat)).2 exampleTable4x3 (by decide)⟩

/-- Claim C10: borrowing iteration is deterministic.  A fresh borrowing iterator is
always the cursor (0, 0), and two independently acquired iterators driven to
exhaustion over the same unmutated table yield exactly the same pairs in the
same order, regardless of how many (sufficient) `next` calls each consumer
makes. -/
theorem claim10_iteration_deterministic (m : HashMap K V) (f1 f2 : Nat)
    (h1 : (allPairs m.buckets).length ≤ f1) (h2 : (allPairs m.buckets).length ≤ f2) :
    m.iter = Iter.mk 0 0
    ∧ iterCollect m f1 (m.iter) = iterCollect m f2 (m.iter) := by
  refine ⟨rfl, ?_⟩
  rw [iterCollect_all m f1 h1, iterCollect_all m f2 h2]

/-- Claim C10 witness: two differently driven iterators over the three-item table
produce the same sequence. -/
theorem claim10_iteration_deterministic_witness :
    (allPairs exampleTable4x3.buckets).length ≤ 5
    ∧ (allPairs exampleTable4x3.buckets).length ≤ 9
    ∧ iterCollect exampleTable4x3 5 (exampleTable4x3.iter)
        = iterCollect exampleTable4x3 9 (exampleTable4x3.iter) :=
  ⟨by decide, by decide,
   (claim10_iteration_deterministic exampleTable4x3 5 9 (by decide) (by decide)).2⟩

end RustLhm
